import Mathlib

/-!
Verification of the bayesian classifier repository: a radix (compressed
prefix) tree storing per-category counts (src/internal/radix/radix.go and a
second revision of the same package in src/unnamed/part_001), and the naive
Bayes classifier built on it (src/bayesian.go).

Modelling choices:
* Go strings are modelled as lists of runes (`List Char`); Go compares
  strings byte-wise, which for valid UTF-8 coincides with code-point
  lexicographic order, so `lexLt` below is rune-wise lexicographic order.
* Go `int` counters only ever start at 0 and are incremented, so they are
  modelled as `Nat`; category indices can be negative in Go, so they are
  modelled as `Int` where sign matters.
* Fallible operations return explicit result types; a Go runtime panic
  (out-of-range slice index, big.Float 0/0 division) is a distinct
  constructor, never conflated with an error return.
* big.Float score arithmetic is modelled over `ℚ`; every claim settled here
  only exercises values on which float arithmetic is exact (zeros and
  comparisons), so no rounding is modelled.
-/

/-- Rune-wise lexicographic strict order on strings, mirroring Go's `<` on
`string` (byte order, which equals code-point order for valid UTF-8). -/
def lexLt : List Char → List Char → Bool
  | _, [] => false
  | [], _ :: _ => true
  | a :: as, b :: bs => if a < b then true else if b < a then false else lexLt as bs

/-- Go's `>=` on strings. -/
def lexGe (x y : List Char) : Bool := !(lexLt x y)

/-- Go `strings.TrimPrefix(s, p)`: drops `p` if it leads `s`, else returns
`s` unchanged. -/
def trimPre (s p : List Char) : List Char :=
  if p.isPrefixOf s then s.drop p.length else s

/-- Shared loop of both `longestCommonPrefix` revisions: walk two rune
sequences in lockstep, keeping runes while they agree. -/
def lcpCore : List Char → List Char → List Char
  | a :: as, b :: bs => if a = b then a :: lcpCore as bs else []
  | _, _ => []

/-- `longestCommonPrefix` from src/internal/radix/radix.go lines 113-130:
convert both strings to rune slices, swap so the first is the shorter
(`if len(longer) < len(shorter)`), then accumulate equal runes until the
first mismatch. -/
def lcpA (left right : List Char) : List Char :=
  if right.length < left.length then lcpCore right left else lcpCore left right

/-- The rune-count loop of part_001's `longestCommonPrefix`: number of
leading positions where the two strings carry the same rune.  In the Go
source the loop walks byte offsets with `utf8.DecodeRuneInString`; on
synchronized rune boundaries that is exactly this count, and `end` is the
byte length of the first `lcpCount` runes. -/
def lcpCount : List Char → List Char → Nat
  | a :: as, b :: bs => if b = a then 1 + lcpCount as bs else 0
  | _, _ => 0

/-- `longestCommonPrefix` from src/unnamed/part_001 lines 118-137: swap so
the first string has no more runes (`if RuneCountInString(left) >
RuneCountInString(right)`), then return `left[:end]` where `end` is the
byte length of the matching run. -/
def lcpB (left right : List Char) : List Char :=
  let p := if right.length < left.length then (right, left) else (left, right)
  p.1.take (lcpCount p.1 p.2)

theorem lcpCore_eq_take (a b : List Char) : lcpCore a b = a.take (lcpCount a b) := by
  induction a generalizing b with
  | nil => cases b <;> simp [lcpCore, lcpCount]
  | cons x xs ih =>
    cases b with
    | nil => simp [lcpCore, lcpCount]
    | cons y ys =>
      by_cases h : x = y
      · subst h
        simp [lcpCore, lcpCount, ih, Nat.add_comm]
      · have h2 : ¬ (y = x) := fun hh => h hh.symm
        simp [lcpCore, lcpCount, h, h2]

/-- The two `longestCommonPrefix` revisions agree on every pair of strings. -/
theorem lcp_agree (x y : List Char) : lcpB x y = lcpA x y := by
  unfold lcpA lcpB
  by_cases h : y.length < x.length <;> simp [h, lcpCore_eq_take]

/-- A radix-tree node (`radixNode` in radix.go, `node` in part_001):
per-category values (Go `nil` slice modelled as `[]`), a leaf flag, and a
list of labelled children (`radixChild.prefix`/`radixChild.node`). -/
inductive RNode : Type where
  | mk (vals : List Nat) (leafFlag : Bool) (kids : List (List Char × RNode)) : RNode

def RNode.vals : RNode → List Nat
  | .mk v _ _ => v

def RNode.leafFlag : RNode → Bool
  | .mk _ f _ => f

def RNode.kids : RNode → List (List Char × RNode)
  | .mk _ _ k => k

theorem RNode.sizeOf_kids_lt (n : RNode) : sizeOf n.kids < sizeOf n := by
  cases n with
  | mk v f k =>
    simp only [RNode.kids, RNode.mk.sizeOf_spec]
    omega

theorem sizeOf_snd_lt_of_mem {c : List Char × RNode} {ks : List (List Char × RNode)}
    (h : c ∈ ks) : sizeOf c.2 < sizeOf ks := by
  have h1 := List.sizeOf_lt_of_mem h
  cases c with
  | mk a b => simp at h1 ⊢; omega

theorem sizeOf_snd_lt_of_getElem {ks : List (List Char × RNode)} {i : Nat}
    {c : List Char × RNode} (h : ks[i]? = some c) : sizeOf c.2 < sizeOf ks := by
  exact sizeOf_snd_lt_of_mem (List.getElem?_mem h)

/-- The five `matchType` constants of the radix package:
`nomatch`, `shared_prefix`, `substring`, `exact`, `super`. -/
inductive MatchType : Type where
  | noneM   -- nomatch
  | shareM  -- shared_prefix
  | subM    -- substring
  | exactM  -- exact
  | superM  -- super
deriving DecidableEq

/-- Go `sort.Search(len(children), func(i) { return children[i].prefix >= needle })`:
the smallest index at which the predicate holds, `len children` if none.
Go specifies this smallest-index result only when the predicate is
monotone, which it is whenever the child list is sorted; on a child list
an earlier bug left unsorted, `sort.Search` documents its result as
unspecified, and this embedding fixes the smallest-index refinement (the
general theorems below case over every possible search outcome, so they do
not depend on which index an unspecified search would pick). -/
def lowerBound (cs : List (List Char × RNode)) (needle : List Char) : Nat :=
  match cs with
  | [] => 0
  | c :: rest => if lexGe c.1 needle then 0 else lowerBound rest needle + 1

theorem lowerBound_le_length (cs : List (List Char × RNode)) (needle : List Char) :
    lowerBound cs needle ≤ cs.length := by
  induction cs with
  | nil => simp [lowerBound]
  | cons c rest ih =>
    simp only [lowerBound, List.length_cons]
    split <;> omega

/-- The backward half of `searchChildren` (radix.go lines 158-173): after the
forward probe fails, test the previous sibling, parameterised by the
revision's `longestCommonPrefix`. -/
def searchBack (lcpf : List Char → List Char → List Char)
    (cs : List (List Char × RNode)) (needle : List Char) (idx : Nat) :
    Nat × MatchType × List Char :=
  if idx = 0 then (0, .noneM, [])
  else
    match cs[idx - 1]? with
    | none => (idx, .noneM, [])   -- unreachable: idx ≤ cs.length always holds
    | some c =>
      let l := lcpf c.1 needle
      if l = c.1 then (idx - 1, .subM, l)
      else if l ≠ [] then (idx - 1, .shareM, l)
      else (idx, .noneM, [])

/-- `searchChildren` (radix.go lines 132-174 / part_001 lines 143-185),
parameterised by the revision's `longestCommonPrefix`: binary-search the
sorted child labels for the needle, probe the candidate at the insertion
point, then the one before it. -/
def searchChildrenP (lcpf : List Char → List Char → List Char)
    (cs : List (List Char × RNode)) (needle : List Char) :
    Nat × MatchType × List Char :=
  if cs.length = 0 then (0, .noneM, [])
  else
    let idx := lowerBound cs needle
    match cs[idx]? with
    | some c =>
      if c.1 = needle then (idx, .exactM, needle)
      else
        let l := lcpf c.1 needle
        if l = needle then (idx, .superM, l)
        else if l ≠ [] then (idx, .shareM, l)
        else searchBack lcpf cs needle idx
    | none => searchBack lcpf cs needle idx

/-- Go `insertChild` (radix.go lines 201-206): append a zero value and shift,
i.e. insert the new child at position `idx` (the `sort.Search` insertion
point, always ≤ the length). -/
def insertChildAt (cs : List (List Char × RNode)) (c : List Char × RNode)
    (idx : Nat) : List (List Char × RNode) :=
  cs.take idx ++ c :: cs.drop idx

mutual

/-- The `find` descent (radix.go lines 177-198 / part_001 lines 188-209; the
two revisions' code is identical up to which `longestCommonPrefix` is in
scope, so it is parameterised by `lcpf`): loop while the remainder is
consumed by `exact` or `substring` matches; on empty remainder the node is
returned iff it is flagged leaf.  Go's step into `children[idx].node` is
`goFindKids` below. -/
def goFind (lcpf : List Char → List Char → List Char) :
    RNode → List Char → Option RNode
  | .mk v f kids, rem =>
    if rem = [] then (if f then some (.mk v f kids) else none)
    else
      match searchChildrenP lcpf kids rem with
      | (idx, .exactM, l) => goFindKids lcpf kids idx (trimPre rem l)
      | (idx, .subM, l) => goFindKids lcpf kids idx (trimPre rem l)
      | (_, _, _) => none

/-- Continue the `find` descent at `children[idx].node` with the trimmed
remainder (a structural rendering of Go's indexed child access; see
`goFindKids_eq`).  An out-of-range index yields `none` — unreachable, since
`searchChildren` only reports `exact`/`substring` for a real child. -/
def goFindKids (lcpf : List Char → List Char → List Char) :
    List (List Char × RNode) → Nat → List Char → Option RNode
  | [], _, _ => none
  | (_, n) :: _, 0, rem => goFind lcpf n rem
  | _ :: rest, i + 1, rem => goFindKids lcpf rest i rem

end

/-- `goFindKids` is exactly Go's `current = current.children[idx].node`:
descend into the `idx`-th child if it exists. -/
theorem goFindKids_eq (lcpf : List Char → List Char → List Char)
    (kids : List (List Char × RNode)) (idx : Nat) (rem : List Char) :
    goFindKids lcpf kids idx rem =
      match kids[idx]? with
      | some c => goFind lcpf c.2 rem
      | none => none := by
  induction kids generalizing idx with
  | nil => simp [goFindKids]
  | cons c rest ih =>
    cases idx with
    | zero => rcases c with ⟨lab, n⟩; simp [goFindKids]
    | succ i => simp [goFindKids, ih]

mutual

/-- `findOrCreate` of src/internal/radix/radix.go (lines 209-254), fused
with the terminal-node values update that `Insert` performs through the
returned pointer (`upd`, applied exactly once, at the node the Go code
returns).  `needle` is the full inserted string, kept unchanged through the
loop — radix.go's `shared_prefix` branch computes the new edge label as
`strings.TrimPrefix(needle, lcp)` from this full needle (line 229), not
from the current remainder.  Returns the rebuilt subtree and `isNew`.
`none` models the Go index panic on an out-of-range child access
(unreachable; see `goInsertA_isSome`).  The `exact`/`substring` descent
into `children[idx].node` is `goInsertAKids` (see `goInsertAKids_eq`). -/
def goInsertA (upd : List Nat → List Nat) (needle : List Char) :
    RNode → List Char → Option (RNode × Bool)
  | .mk v f kids, rem =>
    if rem = [] then some (.mk (upd v) true kids, false)
    else
      match searchChildrenP lcpA kids rem with
      | (idx, .exactM, l) =>
        match goInsertAKids upd needle kids idx (trimPre rem l) with
        | some (kids2, isNew) => some (.mk v f kids2, isNew)
        | none => none
      | (idx, .subM, l) =>
        match goInsertAKids upd needle kids idx (trimPre rem l) with
        | some (kids2, isNew) => some (.mk v f kids2, isNew)
        | none => none
      | (idx, .shareM, l) =>
        match kids[idx]? with
        | some c =>
          let oldKey := trimPre c.1 l
          let needleKey := trimPre needle l
          let newNode := RNode.mk (upd []) true []
          let newKids := if lexLt needleKey oldKey
            then [(needleKey, newNode), (oldKey, c.2)]
            else [(oldKey, c.2), (needleKey, newNode)]
          some (.mk v f (kids.set idx (l, RNode.mk [] false newKids)), true)
        | none => none
      | (idx, .superM, l) =>
        match kids[idx]? with
        | some c =>
          let suffix := trimPre c.1 l
          let newNode := RNode.mk (upd []) true [(suffix, c.2)]
          some (.mk v f (kids.set idx (l, newNode)), true)
        | none => none
      | (idx, .noneM, _) =>
        some (.mk v f (insertChildAt kids (rem, RNode.mk (upd []) true []) idx), true)

/-- Structural rendering of the radix.go descent `current =
current.children[idx].node` inside `findOrCreate`: recurse into the
`idx`-th child and put the rebuilt child back in its place (Go mutates it
through a pointer; see `goInsertAKids_eq`). -/
def goInsertAKids (upd : List Nat → List Nat) (needle : List Char) :
    List (List Char × RNode) → Nat → List Char →
    Option (List (List Char × RNode) × Bool)
  | [], _, _ => none
  | (lab, n) :: rest, 0, rem =>
    match goInsertA upd needle n rem with
    | some (sub, isNew) => some ((lab, sub) :: rest, isNew)
    | none => none
  | c :: rest, i + 1, rem =>
    match goInsertAKids upd needle rest i rem with
    | some (kids2, isNew) => some (c :: kids2, isNew)
    | none => none

end

theorem goInsertAKids_eq (upd : List Nat → List Nat) (needle : List Char)
    (kids : List (List Char × RNode)) (idx : Nat) (rem : List Char) :
    goInsertAKids upd needle kids idx rem =
      match kids[idx]? with
      | some c =>
        match goInsertA upd needle c.2 rem with
        | some (sub, isNew) => some (kids.set idx (c.1, sub), isNew)
        | none => none
      | none => none := by
  induction kids generalizing idx with
  | nil => simp [goInsertAKids]
  | cons c rest ih =>
    cases idx with
    | zero =>
      rcases c with ⟨lab, n⟩
      simp only [goInsertAKids, List.getElem?_cons_zero, List.set_cons_zero]
    | succ i =>
      simp only [goInsertAKids, List.getElem?_cons_succ, List.set_cons_succ, ih]
      rcases h2 : rest[i]? with _ | c2 <;> simp only [h2]
      rcases h3 : goInsertA upd needle c2.2 rem with _ | ⟨sub, isNew⟩ <;> simp [h3]

mutual

/-- `findOrCreate` of src/unnamed/part_001 (lines 220-265), fused with the
values update exactly as `goInsertA`.  The single difference from radix.go:
the `shared_prefix` branch labels the new leaf's edge with
`strings.TrimPrefix(remainder, lcp)` — the current remainder, not the full
needle (line 240) — and `searchChildren` uses this revision's
`longestCommonPrefix`. -/
def goInsertB (upd : List Nat → List Nat) :
    RNode → List Char → Option (RNode × Bool)
  | .mk v f kids, rem =>
    if rem = [] then some (.mk (upd v) true kids, false)
    else
      match searchChildrenP lcpB kids rem with
      | (idx, .exactM, l) =>
        match goInsertBKids upd kids idx (trimPre rem l) with
        | some (kids2, isNew) => some (.mk v f kids2, isNew)
        | none => none
      | (idx, .subM, l) =>
        match goInsertBKids upd kids idx (trimPre rem l) with
        | some (kids2, isNew) => some (.mk v f kids2, isNew)
        | none => none
      | (idx, .shareM, l) =>
        match kids[idx]? with
        | some c =>
          let oldKey := trimPre c.1 l
          let remKey := trimPre rem l
          let newNode := RNode.mk (upd []) true []
          let newKids := if lexLt remKey oldKey
            then [(remKey, newNode), (oldKey, c.2)]
            else [(oldKey, c.2), (remKey, newNode)]
          some (.mk v f (kids.set idx (l, RNode.mk [] false newKids)), true)
        | none => none
      | (idx, .superM, l) =>
        match kids[idx]? with
        | some c =>
          let suffix := trimPre c.1 l
          let newNode := RNode.mk (upd []) true [(suffix, c.2)]
          some (.mk v f (kids.set idx (l, newNode)), true)
        | none => none
      | (idx, .noneM, _) =>
        some (.mk v f (insertChildAt kids (rem, RNode.mk (upd []) true []) idx), true)

/-- part_001's descent into `children[idx].node`, as `goInsertAKids`. -/
def goInsertBKids (upd : List Nat → List Nat) :
    List (List Char × RNode) → Nat → List Char →
    Option (List (List Char × RNode) × Bool)
  | [], _, _ => none
  | (lab, n) :: rest, 0, rem =>
    match goInsertB upd n rem with
    | some (sub, isNew) => some ((lab, sub) :: rest, isNew)
    | none => none
  | c :: rest, i + 1, rem =>
    match goInsertBKids upd rest i rem with
    | some (kids2, isNew) => some (c :: kids2, isNew)
    | none => none

end

/-- The terminal-node value update performed by `Insert` (radix.go lines
72-76) once `findOrCreate` returns: allocate the values slice if nil, then
increment slot `cat`.  (`List.set` is the in-range Go slice write; `Insert`
only calls it with `cat < n` after its bounds checks.) -/
def updVals (n cat : Nat) (v : List Nat) : List Nat :=
  let v2 := if v = [] then List.replicate n 0 else v
  v2.set cat (v2.getD cat 0 + 1)

/-- The allocation half of the update alone: what has happened to the
terminal node's values at the moment the Go write `values[category] += 1`
panics on a negative `category`. -/
def allocVals (n : Nat) (v : List Nat) : List Nat :=
  if v = [] then List.replicate n 0 else v

/-- The errors of the radix package (`ErrOutOfBoundsCategory`,
`ErrInvalidCategoryCount`, `ErrNoSuchNode`, and part_001's
`ErrCannotCreateNode`). -/
inductive RErr : Type where
  | outOfBoundsCategory
  | invalidCategoryCount
  | noSuchNode
  | cannotCreateNode
deriving DecidableEq

/-- The tree root (`radixRoot` in radix.go, `root` in part_001). -/
structure RRoot : Type where
  numCategories : Nat
  categoryTotals : List Nat
  uniqueWords : Nat
  rootN : RNode

/-- The tree `New n` builds for a positive category count `n`. -/
def newTree (n : Nat) : RRoot :=
  ⟨n, List.replicate n 0, 0, RNode.mk (List.replicate n 0) false []⟩

/-- `New` (radix.go lines 52-62 / part_001 lines 55-65): reject
non-positive category counts, else an empty tree with a bare root whose
values are allocated to zero. -/
def NewT (n : Int) : Except RErr RRoot :=
  if n ≤ 0 then .error .invalidCategoryCount else .ok (newTree n.toNat)

/-- Result of one `Insert` call.  `ok` carries the updated tree, `err` an
error return with the tree it left behind, `panicked` a Go runtime panic
(index out of range) together with the tree state at the moment of the
panic. -/
inductive InsRes : Type where
  | ok (t : RRoot)
  | err (e : RErr) (t : RRoot)
  | panicked (t : RRoot)

def InsRes.isOk : InsRes → Bool
  | .ok _ => true
  | _ => false

def InsRes.isErrOOB : InsRes → Bool
  | .err .outOfBoundsCategory _ => true
  | _ => false

/-- The tree carried by an `InsRes`, whatever the outcome. -/
def InsRes.tree : InsRes → RRoot
  | .ok t => t
  | .err _ t => t
  | .panicked t => t

/-- `Insert` of src/internal/radix/radix.go (lines 65-86).  The source
checks only `category >= r.numCategories`; a negative `category` passes
that check, `findOrCreate` mutates the tree, the nil values slice is
allocated — and the write `node.values[category] += 1` then panics
(index out of range), before `uniqueWords` and `categoryTotals` are
touched. -/
def InsertA (t : RRoot) (needle : List Char) (cat : Int) : InsRes :=
  if (t.numCategories : Int) ≤ cat then .err .outOfBoundsCategory t
  else if 0 ≤ cat then
    match goInsertA (updVals t.numCategories cat.toNat) needle t.rootN needle with
    | some (root2, isNew) =>
      .ok ⟨t.numCategories,
           t.categoryTotals.set cat.toNat (t.categoryTotals.getD cat.toNat 0 + 1),
           t.uniqueWords + (if isNew then 1 else 0),
           root2⟩
    | none => .panicked t
  else
    match goInsertA (allocVals t.numCategories) needle t.rootN needle with
    | some (root2, _) => .panicked { t with rootN := root2 }
    | none => .panicked t

/-- `Insert` of src/unnamed/part_001 (lines 68-91); the same bounds check,
calling that revision's `findOrCreate`.  (Its `node == nil` branch
returning `ErrCannotCreateNode` is dead code: `findOrCreate` returns a
node on every path.) -/
def InsertB (t : RRoot) (needle : List Char) (cat : Int) : InsRes :=
  if (t.numCategories : Int) ≤ cat then .err .outOfBoundsCategory t
  else if 0 ≤ cat then
    match goInsertB (updVals t.numCategories cat.toNat) t.rootN needle with
    | some (root2, isNew) =>
      .ok ⟨t.numCategories,
           t.categoryTotals.set cat.toNat (t.categoryTotals.getD cat.toNat 0 + 1),
           t.uniqueWords + (if isNew then 1 else 0),
           root2⟩
    | none => .panicked t
  else
    match goInsertB (allocVals t.numCategories) t.rootN needle with
    | some (root2, _) => .panicked { t with rootN := root2 }
    | none => .panicked t

/-- `Find` (radix.go lines 89-96 / part_001 lines 94-101), parameterised by
the revision's `longestCommonPrefix`: `some values` is Go's
`(node.values, true)`, `none` is `(nil, false)`. -/
def FindT (lcpf : List Char → List Char → List Char) (t : RRoot)
    (needle : List Char) : Option (List Nat) :=
  (goFind lcpf t.rootN needle).map RNode.vals

/-- `Find` of the radix.go revision. -/
def FindA (t : RRoot) (needle : List Char) : Option (List Nat) := FindT lcpA t needle

/-- `Find` of the part_001 revision. -/
def FindB (t : RRoot) (needle : List Char) : Option (List Nat) := FindT lcpB t needle

/-- A Go string literal as a rune list. -/
def strL (s : String) : List Char := s.toList

/-- Chain helper for building concrete trees: the tree an `Insert` into
category 0 leaves behind (all example inserts succeed). -/
def insOk (ins : RRoot → List Char → Int → InsRes) (t : RRoot) (w : List Char) : RRoot :=
  (ins t w 0).tree

mutual

/-- Number of nodes flagged leaf in a subtree (the quantity the spec's
`uniqueWordCount` invariant refers to). -/
def countLeaves : RNode → Nat
  | .mk _ f kids => (if f then 1 else 0) + countLeavesL kids

def countLeavesL : List (List Char × RNode) → Nat
  | [] => 0
  | (_, n) :: rest => countLeaves n + countLeavesL rest

end

mutual

/-- Sum of `counts[c]` over every node flagged leaf in a subtree (the
quantity the spec's `categoryTotals` invariant refers to). -/
def leafSum (c : Nat) : RNode → Nat
  | .mk v f kids => (if f then v.getD c 0 else 0) + leafSumL c kids

def leafSumL (c : Nat) : List (List Char × RNode) → Nat
  | [] => 0
  | (_, n) :: rest => leafSum c n + leafSumL c rest

end

/-- `leads p s` iff `p` is a prefix of `s` (Go `strings.HasPrefix`). -/
def leads : List Char → List Char → Bool
  | [], _ => true
  | _ :: _, [] => false
  | a :: as, b :: bs => a == b && leads as bs

/-- The spec's sibling-list invariant on one child list's labels: strictly
sorted (code-point lexicographic), every label non-empty, and no label a
prefix of another. -/
def labelsOK : List (List Char) → Bool
  | [] => true
  | x :: xs =>
    !x.isEmpty && xs.all (fun y => lexLt x y && !(leads x y) && !(leads y x))
      && labelsOK xs

mutual

/-- The spec's child-list structural invariant, at every node of a subtree. -/
def treeOK : RNode → Bool
  | .mk _ _ kids => labelsOK (kids.map Prod.fst) && treeOKL kids

def treeOKL : List (List Char × RNode) → Bool
  | [] => true
  | (_, n) :: rest => treeOK n && treeOKL rest

end

/-- Go runtime panics the classifier layer can hit: `big.Float.Quo` panics
with `ErrNaN` when both operands are zero; slice indexing panics when out
of range. -/
inductive GoPanic : Type where
  | errNaN
  | indexOutOfRange
deriving DecidableEq

/-- The classifier (src/bayesian.go `classifier`): one radix tree (the
radix.go revision, which is what `bayesian.go` imports) plus a smoothing
factor.  Score arithmetic is modelled over `ℚ` (see the header comment). -/
structure CModel : Type where
  tree : RRoot
  smoothingFactor : ℚ

/-- `getPriors` (bayesian.go lines 84-99): sum the category totals; divide
each by the sum, unless the sum is zero, in which case the raw totals
(all zero) are returned unnormalised. -/
def getPriors (c : CModel) : List ℚ :=
  let priors := c.tree.categoryTotals.map (fun (v : Nat) => (v : ℚ))
  let sum : ℚ := priors.sum
  if sum ≠ 0 then priors.map (· / sum) else priors

/-- `getCategoryProbs` (bayesian.go lines 62-82): all-zero likelihoods when
nothing has been learned; otherwise look the word up (absent words get
all-zero counts) and apply Lidstone smoothing per category. -/
def getCategoryProbs (c : CModel) (text : List Char) : List ℚ :=
  if c.tree.uniqueWords = 0 then List.replicate c.tree.numCategories 0
  else
    let uw : ℚ := (c.tree.uniqueWords : ℚ)
    let counts := match FindA c.tree text with
      | some cs => cs
      | none => List.replicate c.tree.numCategories 0
    (List.range counts.length).map (fun i =>
      ((counts.getD i 0 : ℚ) + c.smoothingFactor) /
        ((c.tree.categoryTotals.getD i 0 : ℚ) + c.smoothingFactor * uw))

/-- The loop of `findMax` (bayesian.go lines 131-143), scanning from index
1 with current argmax `idx` and strictness flag `strict`.  `getD` is the
in-range Go access `scores[i]`. -/
def findMaxLoop (scores : List ℚ) (i idx : Nat) (strict : Bool) : Nat × Bool :=
  if i < scores.length then
    if scores.getD idx 0 < scores.getD i 0 then findMaxLoop scores (i + 1) i true
    else if scores.getD idx 0 = scores.getD i 0 then findMaxLoop scores (i + 1) idx false
    else findMaxLoop scores (i + 1) idx strict
  else (idx, strict)
termination_by scores.length - i

/-- `findMax` (bayesian.go lines 131-143): left-to-right scan starting at
`idx = 0`, `strict = true`. -/
def findMax (scores : List ℚ) : Nat × Bool := findMaxLoop scores 1 0 true

/-- `Scores` (bayesian.go lines 102-128): start from the priors, multiply
in each word's per-category likelihoods, sum, normalise, and run `findMax`.
`big.Float.Quo(x, 0)` panics with `ErrNaN` when `x = 0`; every score here
is a product of nonnegative rationals, so a zero sum forces `scores[0] = 0`
and the first normalisation step panics — modelled by the `sum = 0` test. -/
def ScoresGo (c : CModel) (doc : List (List Char)) :
    Except GoPanic (List ℚ × Nat × Bool) :=
  let priors := getPriors c
  let scores := doc.foldl (fun acc w =>
    acc.zipWith (· * ·) (getCategoryProbs c w)) priors
  let s := scores.sum
  if s = 0 then .error .errNaN
  else
    let normalized := scores.map (· / s)
    .ok (normalized, findMax normalized)

/-- Result of `Learn`: the classifier state it leaves behind, with the
outcome of the last `Insert`. -/
inductive LearnRes : Type where
  | ok (c : CModel)
  | err (e : RErr) (c : CModel)
  | panicked (c : CModel)

/-- `Learn` (bayesian.go lines 146-155): insert each token of the document
in order into the tree; stop at the first `Insert` that does not return
normally, surfacing it, with no rollback of earlier tokens. -/
def LearnGo (c : CModel) (doc : List (List Char)) (cat : Int) : LearnRes :=
  match doc with
  | [] => .ok c
  | w :: ws =>
    match InsertA c.tree w cat with
    | .ok t2 => LearnGo ⟨t2, c.smoothingFactor⟩ ws cat
    | .err e t2 => .err e ⟨t2, c.smoothingFactor⟩
    | .panicked t2 => .panicked ⟨t2, c.smoothingFactor⟩

def InsRes.isPanic : InsRes → Bool
  | .panicked _ => true
  | _ => false

/-- radix.go tree after `Insert("yacx", 0)` into a fresh 1-category tree. -/
def T1A : RRoot := insOk InsertA (newTree 1) (strL "yacx")

/-- ... then `Insert("yade", 0)`. -/
def T2A : RRoot := insOk InsertA T1A (strL "yade")

/-- ... then `Insert("yacy", 0)` — the insert whose edge split below the
root uses the full needle instead of the remainder. -/
def T3A : RRoot := insOk InsertA T2A (strL "yacy")

/-- part_001 trees after the same three inserts. -/
def T1B : RRoot := insOk InsertB (newTree 1) (strL "yacx")

def T2B : RRoot := insOk InsertB T1B (strL "yade")

def T3B : RRoot := insOk InsertB T2B (strL "yacy")

/-- C1: Round-trip fails on the radix.go revision: after
`Insert("yacx", 0)`, `Insert("yade", 0)`, the call `Insert("yacy", 0)`
returns normally, yet `Find("yacy")` then reports not-found (the
`shared_prefix` split below the root files the new leaf under the label
`TrimPrefix(needle, lcp)` = "yacy" instead of "y", i.e. at path
"yacyacy"). -/
theorem C1_roundtrip_fails_in_radix_go :
    (InsertA T2A (strL "yacy") 0).isOk = true ∧ FindA T3A (strL "yacy") = none := by
  exact ⟨rfl, rfl⟩

set_option maxHeartbeats 2000000 in
/-- C2: Superstring confusion on the radix.go revision: "yacy" was
inserted, "yacyacy" (a proper superstring of it) never was, yet
`Find("yacyacy")` reports found with counts `[1]` — the leaf the bug filed
at path "yacyacy". -/
theorem C2_superstring_confusion_in_radix_go :
    leads (strL "yacy") (strL "yacyacy") = true ∧
    (strL "yacy").length < (strL "yacyacy").length ∧
    FindA T3A (strL "yacyacy") = some [1] := by
  refine ⟨rfl, ?_, rfl⟩
  have h4 : (strL "yacy").length = 4 := rfl
  have h7 : (strL "yacyacy").length = 7 := rfl
  omega

/-- radix.go tree after inserting "ab", "ac", "a" (in that order) into a
fresh 1-category tree. -/
def TabA : RRoot :=
  insOk InsertA (insOk InsertA (insOk InsertA (newTree 1) (strL "ab")) (strL "ac")) (strL "a")

/-- The same three inserts on the part_001 revision. -/
def TabB : RRoot :=
  insOk InsertB (insOk InsertB (insOk InsertB (newTree 1) (strL "ab")) (strL "ac")) (strL "a")

/-- C3: the `uniqueWordCount` invariant fails on both revisions: after
inserting the three distinct strings "ab", "ac", "a", all three are found,
the tree has three leaf nodes, yet `UniqueWords()` reports 2 — the third
insert lands on the existing interior node "a" (created by the earlier
split), and `findOrCreate`'s `remainder == ""` branch flags it leaf but
reports `isNew = false`. -/
theorem C3_uniqueWords_undercount :
    TabA.uniqueWords = 2 ∧ countLeaves TabA.rootN = 3 ∧
    (FindA TabA (strL "ab")).isSome = true ∧
    (FindA TabA (strL "ac")).isSome = true ∧
    (FindA TabA (strL "a")).isSome = true ∧
    TabB.uniqueWords = 2 ∧ countLeaves TabB.rootN = 3 := by
  exact ⟨rfl, rfl, rfl, rfl, rfl, rfl, rfl⟩

/-- radix.go trees for the child-list invariant counterexample. -/
def Tbc2A : RRoot := insOk InsertA (insOk InsertA (newTree 1) (strL "bcb")) (strL "bde")

def Tbc3A : RRoot := insOk InsertA Tbc2A (strL "bcx")

/-- C4: the child-list invariant fails on the radix.go revision: the tree
after inserting "bcb", "bde" satisfies it, but the split performed while
inserting "bcx" creates sibling labels "b" and "bcx" (the latter from
`TrimPrefix(needle, lcp)` on the full needle), and "b" is a proper prefix
of "bcx". -/
theorem C4_sibling_invariant_broken_in_radix_go :
    treeOK Tbc2A.rootN = true ∧
    (InsertA Tbc2A (strL "bcx") 0).isOk = true ∧
    treeOK Tbc3A.rootN = false := by
  exact ⟨rfl, rfl, rfl⟩

/-- C6 counterexample: `Insert("a", -1)` on a fresh 1-category tree does
not return the `OutOfBoundsCategory` error (the source only checks
`category >= numCategories`); instead the insert panics at the negative
slice index `values[category]`, after `findOrCreate` has already mutated
the tree. -/
theorem C6_counterexample_negative_category :
    (InsertA (newTree 1) (strL "a") (-1)).isErrOOB = false ∧
    (InsertA (newTree 1) (strL "a") (-1)).isPanic = true := by
  exact ⟨rfl, rfl⟩

/-- C7 counterexample: on an untrained classifier (2 categories, smoothing
factor 1, nothing learned), `Scores(["x"])` does not return normally: all
scores reach the normalisation loop as exact zeros, their sum is zero, and
`big.Float.Quo(0, 0)` panics with `ErrNaN`. -/
theorem C7_counterexample_untrained_scores_panic :
    ScoresGo ⟨newTree 2, 1⟩ [strL "x"] = .error .errNaN := by
  simp [ScoresGo, getPriors, getCategoryProbs, newTree, strL]

set_option maxHeartbeats 2000000 in
/-- C10 counterexample: the two revisions are observably inequivalent:
after the same insert sequence "yacx", "yade", "yacy" (all successful on
both), `Find("yacy")` is not-found on the radix.go tree yet found on the
part_001 tree. -/
theorem C10_counterexample_revisions_disagree :
    FindA T3A (strL "yacy") ≠ FindB T3B (strL "yacy") := by
  have h1 : FindA T3A (strL "yacy") = none := rfl
  have h2 : FindB T3B (strL "yacy") = some [1] := rfl
  rw [h1, h2]
  simp

/-- Shared helper: both revisions' `Insert` returns `ErrOutOfBoundsCategory`
without touching the tree whenever `category >= numCategories`. -/
theorem insert_oob_err (t : RRoot) (needle : List Char) (cat : Int)
    (h : (t.numCategories : Int) ≤ cat) :
    InsertA t needle cat = .err .outOfBoundsCategory t ∧
    InsertB t needle cat = .err .outOfBoundsCategory t := by
  constructor <;> simp [InsertA, InsertB, h]

/-- C6 (amended): `Insert` fails with `OutOfBoundsCategory`, leaving the
tree completely unchanged, exactly in the `category ≥ categoryCount` case —
the only bounds check the source performs (both revisions). -/
theorem C6_amended_oob_error (t : RRoot) (needle : List Char) (cat : Int)
    (h : (t.numCategories : Int) ≤ cat) :
    InsertA t needle cat = .err .outOfBoundsCategory t ∧
    InsertB t needle cat = .err .outOfBoundsCategory t :=
  insert_oob_err t needle cat h

theorem C6_amended_witness :
    ((newTree 1).numCategories : Int) ≤ 5 ∧
    InsertA (newTree 1) (strL "a") 5 = .err .outOfBoundsCategory (newTree 1) :=
  ⟨by decide, (C6_amended_oob_error (newTree 1) (strL "a") 5 (by decide)).1⟩

theorem zipWith_replicate_both {α β γ : Type} (f : α → β → γ) (n : Nat) (a : α) (b : β) :
    List.zipWith f (List.replicate n a) (List.replicate n b) = List.replicate n (f a b) := by
  induction n with
  | zero => rfl
  | succ k ih => simp [List.replicate, ih]

theorem getPriors_newTree (n : Nat) (sf : ℚ) :
    getPriors ⟨newTree n, sf⟩ = List.replicate n 0 := by
  simp [getPriors, newTree, List.map_replicate]

theorem getCategoryProbs_newTree (n : Nat) (sf : ℚ) (w : List Char) :
    getCategoryProbs ⟨newTree n, sf⟩ w = List.replicate n 0 := by
  simp [getCategoryProbs, newTree]

/-- C7 (amended): on an untrained classifier the priors are all zero and
every per-word likelihood contribution is all-zero — so every score reaches
the normalisation step as exactly zero, the sum is zero, and the
`big.Float.Quo(0, 0)` normalisation panics with `ErrNaN` instead of
returning. -/
theorem C7_amended_untrained (n : Nat) (sf : ℚ) (doc : List (List Char)) :
    getPriors ⟨newTree n, sf⟩ = List.replicate n 0 ∧
    (∀ w, getCategoryProbs ⟨newTree n, sf⟩ w = List.replicate n 0) ∧
    ScoresGo ⟨newTree n, sf⟩ doc = .error .errNaN := by
  refine ⟨getPriors_newTree n sf, fun w => getCategoryProbs_newTree n sf w, ?_⟩
  have hfold : ∀ (ws : List (List Char)),
      ws.foldl (fun acc w => acc.zipWith (· * ·) (getCategoryProbs ⟨newTree n, sf⟩ w))
        (List.replicate n 0) = List.replicate n 0 := by
    intro ws
    induction ws with
    | nil => rfl
    | cons w rest ih =>
      rw [List.foldl_cons, getCategoryProbs_newTree, zipWith_replicate_both, mul_zero]
      exact ih
  simp only [ScoresGo, getPriors_newTree, hfold]
  simp

/-- Loop invariant of `findMax`: scanning positions `[i, len)` with current
least-argmax `idx` of the prefix `[0, i)` and `strict` recording whether
that maximum is unique in the prefix, the loop returns the least argmax of
the whole list together with uniqueness of the maximum. -/
theorem findMaxLoop_spec (scores : List ℚ) :
    ∀ (k i idx : Nat) (strict : Bool),
      scores.length - i ≤ k → i ≤ scores.length → idx < i →
      (∀ j, j < i → scores.getD j 0 ≤ scores.getD idx 0) →
      (∀ j, j < idx → scores.getD j 0 < scores.getD idx 0) →
      (strict = true ↔ ∀ j, j < i → j ≠ idx → scores.getD j 0 < scores.getD idx 0) →
      ((findMaxLoop scores i idx strict).1 < scores.length ∧
       (∀ j, j < scores.length →
         scores.getD j 0 ≤ scores.getD (findMaxLoop scores i idx strict).1 0) ∧
       (∀ j, j < (findMaxLoop scores i idx strict).1 →
         scores.getD j 0 < scores.getD (findMaxLoop scores i idx strict).1 0) ∧
       ((findMaxLoop scores i idx strict).2 = true ↔
         ∀ j, j < scores.length → j ≠ (findMaxLoop scores i idx strict).1 →
           scores.getD j 0 < scores.getD (findMaxLoop scores i idx strict).1 0)) := by
  intro k
  induction k with
  | zero =>
    intro i idx strict hk hile hidxi hle hlt hstrict
    have hi : ¬ i < scores.length := by omega
    unfold findMaxLoop
    rw [if_neg hi]
    have hieq : i = scores.length := by omega
    subst hieq
    exact ⟨hidxi, hle, hlt, hstrict⟩
  | succ k2 ih =>
    intro i idx strict hk hile hidxi hle hlt hstrict
    by_cases hi : i < scores.length
    · unfold findMaxLoop
      rw [if_pos hi]
      by_cases hgt : scores.getD idx 0 < scores.getD i 0
      · rw [if_pos hgt]
        refine ih (i + 1) i true (by omega) (by omega) (by omega) ?_ ?_ ?_
        · intro j hj
          rcases Nat.lt_succ_iff_lt_or_eq.mp hj with hj2 | hj2
          · exact le_of_lt (lt_of_le_of_lt (hle j hj2) hgt)
          · subst hj2; exact le_refl _
        · intro j hj
          exact lt_of_le_of_lt (hle j hj) hgt
        · constructor
          · intro _ j hj hne
            have hj2 : j < i := by omega
            exact lt_of_le_of_lt (hle j hj2) hgt
          · intro _; rfl
      · by_cases heq : scores.getD idx 0 = scores.getD i 0
        · rw [if_neg hgt, if_pos heq]
          refine ih (i + 1) idx false (by omega) (by omega) (by omega) ?_ ?_ ?_
          · intro j hj
            rcases Nat.lt_succ_iff_lt_or_eq.mp hj with hj2 | hj2
            · exact hle j hj2
            · subst hj2; exact le_of_eq heq.symm
          · exact hlt
          · constructor
            · intro hcon; exact absurd hcon (by simp)
            · intro hall
              exfalso
              have hcon := hall i (by omega) (by omega)
              rw [← heq] at hcon
              exact lt_irrefl _ hcon
        · rw [if_neg hgt, if_neg heq]
          refine ih (i + 1) idx strict (by omega) (by omega) (by omega) ?_ ?_ ?_
          · intro j hj
            rcases Nat.lt_succ_iff_lt_or_eq.mp hj with hj2 | hj2
            · exact hle j hj2
            · subst hj2; exact le_of_not_lt hgt
          · exact hlt
          · rw [hstrict]
            constructor
            · intro hall j hj hne
              rcases Nat.lt_succ_iff_lt_or_eq.mp hj with hj2 | hj2
              · exact hall j hj2 hne
              · subst hj2
                exact lt_of_le_of_ne (le_of_not_lt hgt) (fun hh => heq hh.symm)
            · intro hall j hj hne
              exact hall j (by omega) hne
    · unfold findMaxLoop
      rw [if_neg hi]
      have hieq : i = scores.length := by omega
      subst hieq
      exact ⟨hidxi, hle, hlt, hstrict⟩

/-- C8: for every non-empty score list, `findMax` (the pair `Scores`
returns) yields the smallest index attaining the maximum score, and the
strictness flag is true iff no other index attains that maximum. -/
theorem C8_findMax_argmax_strictness (scores : List ℚ) (h : scores ≠ []) :
    (findMax scores).1 < scores.length ∧
    (∀ j, j < scores.length →
      scores.getD j 0 ≤ scores.getD (findMax scores).1 0) ∧
    (∀ j, j < (findMax scores).1 →
      scores.getD j 0 < scores.getD (findMax scores).1 0) ∧
    ((findMax scores).2 = true ↔
      ∀ j, j < scores.length → j ≠ (findMax scores).1 →
        scores.getD j 0 < scores.getD (findMax scores).1 0) := by
  have hlen : 0 < scores.length := List.length_pos.mpr h
  have hmain := findMaxLoop_spec scores scores.length 1 0 true (by omega) (by omega)
    (by omega) ?_ ?_ ?_
  · simpa [findMax] using hmain
  · intro j hj
    have hj0 : j = 0 := by omega
    subst hj0; exact le_refl _
  · intro j hj; exact absurd hj (by omega)
  · constructor
    · intro _ j hj hne; exfalso; omega
    · intro _; rfl

theorem C8_findMax_witness :
    (([1, 2, 2] : List ℚ) ≠ []) ∧
    ((findMax [1, 2, 2]).1 < ([1, 2, 2] : List ℚ).length ∧
     (∀ j, j < ([1, 2, 2] : List ℚ).length →
       ([1, 2, 2] : List ℚ).getD j 0 ≤ ([1, 2, 2] : List ℚ).getD (findMax [1, 2, 2]).1 0) ∧
     (∀ j, j < (findMax [1, 2, 2]).1 →
       ([1, 2, 2] : List ℚ).getD j 0 < ([1, 2, 2] : List ℚ).getD (findMax [1, 2, 2]).1 0) ∧
     ((findMax [1, 2, 2]).2 = true ↔
       ∀ j, j < ([1, 2, 2] : List ℚ).length → j ≠ (findMax [1, 2, 2]).1 →
         ([1, 2, 2] : List ℚ).getD j 0 < ([1, 2, 2] : List ℚ).getD (findMax [1, 2, 2]).1 0)) :=
  ⟨by simp, C8_findMax_argmax_strictness [1, 2, 2] (by simp)⟩

theorem searchBack_idx_lt (lcpf : List Char → List Char → List Char)
    (cs : List (List Char × RNode)) (needle : List Char) (i idx : Nat)
    (mt : MatchType) (l : List Char)
    (h : searchBack lcpf cs needle i = (idx, mt, l)) (hmt : mt ≠ .noneM) :
    idx < cs.length := by
  unfold searchBack at h
  split at h
  · cases h; exact absurd rfl hmt
  · split at h
    · cases h; exact absurd rfl hmt
    · rename_i c heq
      have hlt : i - 1 < cs.length := (List.getElem?_eq_some.mp heq).1
      dsimp only at h
      split at h
      · cases h; omega
      · split at h
        · cases h; omega
        · cases h; exact absurd rfl hmt

theorem searchChildrenP_idx_lt (lcpf : List Char → List Char → List Char)
    (cs : List (List Char × RNode)) (needle : List Char) (idx : Nat)
    (mt : MatchType) (l : List Char)
    (h : searchChildrenP lcpf cs needle = (idx, mt, l)) (hmt : mt ≠ .noneM) :
    idx < cs.length := by
  unfold searchChildrenP at h
  split at h
  · cases h; exact absurd rfl hmt
  · dsimp only at h
    split at h
    · rename_i c heq
      have hlt : lowerBound cs needle < cs.length := (List.getElem?_eq_some.mp heq).1
      split at h
      · cases h; omega
      · split at h
        · cases h; omega
        · split at h
          · cases h; omega
          · exact searchBack_idx_lt lcpf cs needle (lowerBound cs needle) idx mt l h hmt
    · exact searchBack_idx_lt lcpf cs needle (lowerBound cs needle) idx mt l h hmt

theorem sizeOf_mk_kids (v : List Nat) (f : Bool) (kids : List (List Char × RNode)) :
    sizeOf kids < sizeOf (RNode.mk v f kids) := by
  have h := RNode.mk.sizeOf_spec v f kids
  omega

/-- `findOrCreate` (radix.go revision) returns a node on every input: the
`none` (index-panic) branches are unreachable because `searchChildren` only
reports a non-`nomatch` result for an index of a real child. -/
theorem goInsertA_isSome (upd : List Nat → List Nat) (needle : List Char) :
    ∀ (k : Nat) (node : RNode), sizeOf node ≤ k → ∀ (rem : List Char),
      (goInsertA upd needle node rem).isSome = true := by
  intro k
  induction k with
  | zero =>
    intro node hk
    exfalso
    cases node with
    | mk v f kids =>
      have h := RNode.mk.sizeOf_spec v f kids
      omega
  | succ k2 ih =>
    intro node hk rem
    cases node with
    | mk v f kids =>
      simp only [goInsertA]
      by_cases hrem : rem = []
      · simp [hrem]
      · rw [if_neg hrem]
        rcases hsc : searchChildrenP lcpA kids rem with ⟨idx, mt, l⟩
        have hidx : mt ≠ .noneM → idx < kids.length := fun hmt =>
          searchChildrenP_idx_lt lcpA kids rem idx mt l hsc hmt
        have hkidsz : sizeOf kids < sizeOf (RNode.mk v f kids) := sizeOf_mk_kids v f kids
        cases mt with
        | noneM => simp
        | exactM =>
          have hlt : idx < kids.length := hidx (by simp)
          have hk2 : kids[idx]? = some kids[idx] := List.getElem?_eq_getElem hlt
          dsimp only
          rw [goInsertAKids_eq, hk2]
          have hszc : sizeOf (kids[idx]).2 ≤ k2 := by
            have h1 := sizeOf_snd_lt_of_getElem hk2
            omega
          have hsub := ih (kids[idx]).2 hszc (trimPre rem l)
          rcases hs : goInsertA upd needle (kids[idx]).2 (trimPre rem l) with _ | ⟨sub, isNew⟩
          · rw [hs] at hsub; simp at hsub
          · simp [hs]
        | subM =>
          have hlt : idx < kids.length := hidx (by simp)
          have hk2 : kids[idx]? = some kids[idx] := List.getElem?_eq_getElem hlt
          dsimp only
          rw [goInsertAKids_eq, hk2]
          have hszc : sizeOf (kids[idx]).2 ≤ k2 := by
            have h1 := sizeOf_snd_lt_of_getElem hk2
            omega
          have hsub := ih (kids[idx]).2 hszc (trimPre rem l)
          rcases hs : goInsertA upd needle (kids[idx]).2 (trimPre rem l) with _ | ⟨sub, isNew⟩
          · rw [hs] at hsub; simp at hsub
          · simp [hs]
        | shareM =>
          have hlt : idx < kids.length := hidx (by simp)
          dsimp only
          rw [List.getElem?_eq_getElem hlt]
          simp
        | superM =>
          have hlt : idx < kids.length := hidx (by simp)
          dsimp only
          rw [List.getElem?_eq_getElem hlt]
          simp

/-- Whatever the outcome, `Insert` never changes the category count. -/
theorem InsertA_numCategories (t : RRoot) (w : List Char) (cat : Int) :
    ((InsertA t w cat).tree).numCategories = t.numCategories := by
  unfold InsertA
  split
  · rfl
  · split
    · split
      · rfl
      · rfl
    · split
      · rfl
      · rfl

/-- With a category inside `[0, numCategories)` the radix.go `Insert`
always returns `ok`. -/
theorem InsertA_isOk (t : RRoot) (w : List Char) (cat : Int)
    (h0 : 0 ≤ cat) (h1 : cat < (t.numCategories : Int)) :
    (InsertA t w cat).isOk = true := by
  unfold InsertA
  rw [if_neg (not_le.mpr h1), if_pos h0]
  have hs := goInsertA_isSome (updVals t.numCategories cat.toNat) w
    (sizeOf t.rootN) t.rootN (le_refl _) w
  rcases hres : goInsertA (updVals t.numCategories cat.toNat) w t.rootN w with _ | ⟨r, b⟩
  · rw [hres] at hs; simp at hs
  · simp [hres, InsRes.isOk]

/-- With a negative category the radix.go `Insert` panics (it is not
caught by the `category >= numCategories` check). -/
theorem InsertA_isPanic_of_neg (t : RRoot) (w : List Char) (cat : Int)
    (h : cat < 0) :
    (InsertA t w cat).isPanic = true := by
  unfold InsertA
  have h1 : ¬ ((t.numCategories : Int) ≤ cat) := by
    have : (0 : Int) ≤ (t.numCategories : Int) := Int.ofNat_nonneg _
    omega
  have h2 : ¬ ((0 : Int) ≤ cat) := by omega
  rw [if_neg h1, if_neg h2]
  rcases hres : goInsertA (allocVals t.numCategories) w t.rootN w with _ | ⟨r, b⟩ <;>
    simp [InsRes.isPanic]

/-- C9: `Learn` inserts the document's tokens in order and surfaces the
first `Insert` outcome that is not `ok`, without rolling back earlier
tokens.  Since `Insert`'s only failure conditions depend on the category
alone, the three cases are: a category in range — every insert succeeds and
the tree is the left fold of the inserts; a too-large category — the very
first insert returns `OutOfBoundsCategory` and the tree is untouched
(no token before the failing one, and none after it is inserted); a
negative category — the first insert panics, with its partial mutation of
the tree retained and no later token inserted. -/
theorem C9_learn_first_error_no_rollback (c : CModel) (doc : List (List Char)) (cat : Int) :
    (0 ≤ cat → cat < (c.tree.numCategories : Int) →
      LearnGo c doc cat =
        .ok ⟨doc.foldl (fun t w => (InsertA t w cat).tree) c.tree, c.smoothingFactor⟩) ∧
    ((c.tree.numCategories : Int) ≤ cat →
      LearnGo c doc cat =
        match doc with
        | [] => .ok c
        | _ :: _ => .err .outOfBoundsCategory c) ∧
    (cat < 0 →
      LearnGo c doc cat =
        match doc with
        | [] => .ok c
        | w :: _ => .panicked ⟨(InsertA c.tree w cat).tree, c.smoothingFactor⟩) := by
  refine ⟨?_, ?_, ?_⟩
  · intro h0 h1
    induction doc generalizing c with
    | nil => rfl
    | cons w ws ih =>
      have hok := InsertA_isOk c.tree w cat h0 h1
      rcases hres : InsertA c.tree w cat with ⟨t2⟩ | ⟨e, t2⟩ | ⟨t2⟩
      · have htree : (InsertA c.tree w cat).tree = t2 := by rw [hres]; rfl
        have hnum : t2.numCategories = c.tree.numCategories := by
          rw [← htree, InsertA_numCategories]
        simp only [LearnGo, hres, List.foldl_cons, htree]
        exact ih ⟨t2, c.smoothingFactor⟩ (by rw [show (CModel.mk t2 c.smoothingFactor).tree = t2 from rfl, hnum]; exact h1)
      · rw [hres] at hok; simp [InsRes.isOk] at hok
      · rw [hres] at hok; simp [InsRes.isOk] at hok
  · intro h
    cases doc with
    | nil => rfl
    | cons w ws =>
      simp only [LearnGo, (insert_oob_err c.tree w cat h).1]
  · intro h
    cases doc with
    | nil => rfl
    | cons w ws =>
      have hp := InsertA_isPanic_of_neg c.tree w cat h
      rcases hres : InsertA c.tree w cat with ⟨t2⟩ | ⟨e, t2⟩ | ⟨t2⟩
      · rw [hres] at hp; simp [InsRes.isPanic] at hp
      · rw [hres] at hp; simp [InsRes.isPanic] at hp
      · have htree : (InsertA c.tree w cat).tree = t2 := by rw [hres]; rfl
        simp only [LearnGo, hres, htree]
        rfl

theorem C9_learn_witness :
    LearnGo ⟨newTree 1, 1⟩ [strL "a"] 0 =
      .ok ⟨[strL "a"].foldl (fun t w => (InsertA t w 0).tree) (newTree 1), 1⟩ ∧
    LearnGo ⟨newTree 1, 1⟩ [strL "a"] 3 = .err .outOfBoundsCategory ⟨newTree 1, 1⟩ :=
  ⟨(C9_learn_first_error_no_rollback ⟨newTree 1, 1⟩ [strL "a"] 0).1 (by decide) (by decide),
   (C9_learn_first_error_no_rollback ⟨newTree 1, 1⟩ [strL "a"] 3).2.1 (by decide)⟩

set_option maxHeartbeats 2000000 in
/-- C10 (amended): the two `longestCommonPrefix` revisions agree on every
input, but the tree revisions themselves are not observably equivalent:
after the same successful inserts "yacx", "yade", "yacy", radix.go's
`Find("yacy")` is not-found while part_001's is found with counts `[1]`
(`findOrCreate`'s `shared_prefix` branch trims the full needle in radix.go
and the current remainder in part_001). -/
theorem C10_amended_lcp_agree_but_trees_diverge :
    (∀ x y : List Char, lcpB x y = lcpA x y) ∧
    FindA T3A (strL "yacy") = none ∧ FindB T3B (strL "yacy") = some [1] :=
  ⟨lcp_agree, rfl, rfl⟩

theorem getD_replicate (n i : Nat) : (List.replicate n (0 : Nat)).getD i 0 = 0 := by
  induction n generalizing i with
  | zero => simp
  | succ k ih => cases i <;> simp [List.replicate, ih]

theorem getD_set_self (l : List Nat) (i : Nat) (x : Nat) (h : i < l.length) :
    (l.set i x).getD i 0 = x := by
  induction l generalizing i with
  | nil => simp at h
  | cons a as ih =>
    cases i with
    | zero => simp
    | succ j =>
      simp only [List.set_cons_succ, List.getD_cons_succ]
      exact ih j (by simpa using h)

theorem getD_set_ne (l : List Nat) (i j : Nat) (x : Nat) (h : j ≠ i) :
    (l.set i x).getD j 0 = l.getD j 0 := by
  induction l generalizing i j with
  | nil => simp
  | cons a as ih =>
    cases i with
    | zero =>
      cases j with
      | zero => exact absurd rfl h
      | succ j2 => simp
    | succ i2 =>
      cases j with
      | zero => simp
      | succ j2 =>
        simp only [List.set_cons_succ, List.getD_cons_succ]
        exact ih i2 j2 (by omega)

theorem updVals_length (n cat : Nat) (v : List Nat) (h : v = [] ∨ v.length = n) :
    (updVals n cat v).length = n := by
  unfold updVals
  by_cases hv : v = []
  · simp [hv]
  · have hlen : v.length = n := by
      rcases h with h | h
      · exact absurd h hv
      · exact h
    simp [hv, hlen]

theorem updVals_getD_self (n cat : Nat) (v : List Nat) (hcat : cat < n)
    (h : v = [] ∨ v.length = n) :
    (updVals n cat v).getD cat 0 = v.getD cat 0 + 1 := by
  unfold updVals
  by_cases hv : v = []
  · subst hv
    rw [show (if ([] : List Nat) = [] then List.replicate n 0 else ([] : List Nat)) =
        List.replicate n 0 from by simp]
    rw [getD_set_self _ _ _ (by simp; omega)]
    simp [getD_replicate]
  · rw [if_neg hv]
    have hlen : v.length = n := by
      rcases h with h | h
      · exact absurd h hv
      · exact h
    rw [getD_set_self _ _ _ (by omega)]

theorem updVals_getD_ne (n cat m : Nat) (v : List Nat) (hne : m ≠ cat) :
    (updVals n cat v).getD m 0 = v.getD m 0 := by
  unfold updVals
  by_cases hv : v = []
  · subst hv
    rw [show (if ([] : List Nat) = [] then List.replicate n 0 else ([] : List Nat)) =
        List.replicate n 0 from by simp]
    rw [getD_set_ne _ _ _ _ hne, getD_replicate]
    simp
  · rw [if_neg hv, getD_set_ne _ _ _ _ hne]

mutual

/-- Invariant carried by every reachable node: the values slice is either
nil or allocated at full category length, and a node that is not a leaf has
all-zero values (it has never been incremented). -/
def GoodN (n : Nat) : RNode → Prop
  | .mk v f kids =>
    (v = [] ∨ v.length = n) ∧ (f = false → ∀ m, v.getD m 0 = 0) ∧ GoodNL n kids

def GoodNL (n : Nat) : List (List Char × RNode) → Prop
  | [] => True
  | (_, nd) :: rest => GoodN n nd ∧ GoodNL n rest

end

theorem GoodNL_getElem (n : Nat) (kids : List (List Char × RNode)) (i : Nat)
    (c : List Char × RNode) (h : kids[i]? = some c) (hg : GoodNL n kids) :
    GoodN n c.2 := by
  induction kids generalizing i with
  | nil => simp at h
  | cons k rest ih =>
    rcases k with ⟨kl, kn⟩
    rcases hg with ⟨hk, hrest⟩
    cases i with
    | zero =>
      simp only [List.getElem?_cons_zero, Option.some.injEq] at h
      rw [← h]
      exact hk
    | succ j =>
      simp only [List.getElem?_cons_succ] at h
      exact ih j h hrest

theorem GoodNL_set (n : Nat) (kids : List (List Char × RNode)) (i : Nat)
    (lab : List Char) (sub : RNode) (hg : GoodNL n kids) (hs : GoodN n sub) :
    GoodNL n (kids.set i (lab, sub)) := by
  induction kids generalizing i with
  | nil => simpa using hg
  | cons k rest ih =>
    rcases k with ⟨kl, kn⟩
    rcases hg with ⟨hk, hrest⟩
    cases i with
    | zero => exact ⟨hs, hrest⟩
    | succ j => exact ⟨hk, ih j hrest⟩

theorem insertChildAt_cons (k : List Char × RNode) (rest : List (List Char × RNode))
    (ch : List Char × RNode) (j : Nat) :
    insertChildAt (k :: rest) ch (j + 1) = k :: insertChildAt rest ch j := by
  simp [insertChildAt]

theorem GoodNL_insertChildAt (n : Nat) (kids : List (List Char × RNode))
    (ch : List Char × RNode) (i : Nat) (hg : GoodNL n kids) (hc : GoodN n ch.2) :
    GoodNL n (insertChildAt kids ch i) := by
  induction kids generalizing i with
  | nil =>
    rcases ch with ⟨cl, cn⟩
    rw [show insertChildAt [] (cl, cn) i = [(cl, cn)] from by simp [insertChildAt]]
    exact ⟨hc, trivial⟩
  | cons k rest ih =>
    rcases k with ⟨kl, kn⟩
    rcases hg with ⟨hk, hrest⟩
    cases i with
    | zero =>
      rcases ch with ⟨cl, cn⟩
      rw [show insertChildAt ((kl, kn) :: rest) (cl, cn) 0 = (cl, cn) :: (kl, kn) :: rest
        from by simp [insertChildAt]]
      exact ⟨hc, hk, hrest⟩
    | succ j =>
      rw [insertChildAt_cons]
      exact ⟨hk, ih j hrest⟩

theorem leafSumL_set (m : Nat) (kids : List (List Char × RNode)) (i : Nat)
    (c : List Char × RNode) (lab : List Char) (sub : RNode) (h : kids[i]? = some c) :
    leafSumL m (kids.set i (lab, sub)) + leafSum m c.2 =
      leafSumL m kids + leafSum m sub := by
  induction kids generalizing i with
  | nil => simp at h
  | cons k rest ih =>
    rcases k with ⟨kl, kn⟩
    cases i with
    | zero =>
      simp only [List.getElem?_cons_zero, Option.some.injEq] at h
      subst h
      simp only [List.set_cons_zero, leafSumL]
      omega
    | succ j =>
      simp only [List.getElem?_cons_succ] at h
      simp only [List.set_cons_succ, leafSumL]
      have := ih j h
      omega

theorem leafSumL_insertChildAt (m : Nat) (kids : List (List Char × RNode))
    (ch : List Char × RNode) (i : Nat) :
    leafSumL m (insertChildAt kids ch i) = leafSumL m kids + leafSum m ch.2 := by
  induction kids generalizing i with
  | nil =>
    rcases ch with ⟨cl, cn⟩
    simp [insertChildAt, leafSumL]
  | cons k rest ih =>
    rcases k with ⟨kl, kn⟩
    cases i with
    | zero =>
      rcases ch with ⟨cl, cn⟩
      simp only [insertChildAt, List.take_zero, List.drop_zero, List.nil_append, leafSumL]
      omega
    | succ j =>
      rw [insertChildAt_cons]
      simp only [leafSumL, ih j]
      omega

/-- Sum of the per-category values of the single new leaf created by an
insert: 1 at the inserted category, 0 elsewhere. -/
theorem leafSum_newLeaf (ncat cat m : Nat) (hcat : cat < ncat) :
    leafSum m (RNode.mk (updVals ncat cat []) true []) =
      (if m = cat then 1 else 0) := by
  simp only [leafSum, leafSumL]
  by_cases hm : m = cat
  · subst hm
    rw [updVals_getD_self _ _ _ hcat (Or.inl rfl)]
    simp
  · rw [updVals_getD_ne _ _ _ _ hm]
    simp [hm]

theorem GoodN_newLeaf (ncat cat : Nat) :
    GoodN ncat (RNode.mk (updVals ncat cat []) true []) := by
  simp only [GoodN]
  exact ⟨Or.inr (updVals_length _ _ _ (Or.inl rfl)), fun hf => absurd hf (by simp), trivial⟩

/-- Key invariant lemma for the radix.go insert: on a `GoodN` node, a
successful `findOrCreate`-plus-increment leaves a `GoodN` tree and raises
the leaf-sum of the inserted category by exactly 1, every other category's
leaf-sum unchanged. -/
theorem goInsertA_good_leafSum (ncat cat : Nat) (hcat : cat < ncat) (needle : List Char) :
    ∀ (k : Nat) (node : RNode), sizeOf node ≤ k →
      ∀ (rem : List Char) (res : RNode × Bool),
        GoodN ncat node →
        goInsertA (updVals ncat cat) needle node rem = some res →
        GoodN ncat res.1 ∧
        ∀ m, leafSum m res.1 = leafSum m node + (if m = cat then 1 else 0) := by
  intro k
  induction k with
  | zero =>
    intro node hk
    exfalso
    cases node with
    | mk v f kids =>
      have h := RNode.mk.sizeOf_spec v f kids
      omega
  | succ k2 ih =>
    intro node hk rem res hgood heq
    cases node with
    | mk v f kids =>
      simp only [GoodN] at hgood
      rcases hgood with ⟨hv, hzero, hkids⟩
      simp only [goInsertA] at heq
      by_cases hrem : rem = []
      · rw [if_pos hrem] at heq
        simp only [Option.some.injEq] at heq
        subst heq
        constructor
        · simp only [GoodN]
          exact ⟨Or.inr (updVals_length _ _ _ hv), fun hf => absurd hf (by simp), hkids⟩
        · intro m
          simp only [leafSum]
          cases f
          · have h0 := hzero rfl m
            by_cases hm : m = cat
            · rw [hm] at h0 ⊢
              rw [updVals_getD_self _ _ _ hcat hv, h0]
              simp
              omega
            · rw [updVals_getD_ne _ _ _ _ hm, h0]
              simp [hm]
          · by_cases hm : m = cat
            · rw [hm, updVals_getD_self _ _ _ hcat hv]
              simp
              omega
            · rw [updVals_getD_ne _ _ _ _ hm]
              simp [hm]
      · rw [if_neg hrem] at heq
        rcases hsc : searchChildrenP lcpA kids rem with ⟨idx, mt, l⟩
        rw [hsc] at heq
        have hkidsz := sizeOf_mk_kids v f kids
        cases mt with
        | noneM =>
          dsimp only at heq
          simp only [Option.some.injEq] at heq
          subst heq
          constructor
          · simp only [GoodN]
            exact ⟨hv, hzero,
              GoodNL_insertChildAt _ _ _ _ hkids (GoodN_newLeaf ncat cat)⟩
          · intro m
            simp only [leafSum]
            rw [leafSumL_insertChildAt]
            rw [show leafSum m (rem, RNode.mk (updVals ncat cat []) true []).2 =
                (if m = cat then 1 else 0) from leafSum_newLeaf ncat cat m hcat]
            omega
        | exactM =>
          dsimp only at heq
          rw [goInsertAKids_eq] at heq
          rcases hki : kids[idx]? with _ | c
          · rw [hki] at heq; simp at heq
          · rw [hki] at heq
            dsimp only at heq
            rcases hsub : goInsertA (updVals ncat cat) needle c.2 (trimPre rem l)
              with _ | ⟨sub, isNew⟩
            · rw [hsub] at heq; simp at heq
            · rw [hsub] at heq
              simp only [Option.some.injEq] at heq
              subst heq
              have hszc : sizeOf c.2 ≤ k2 := by
                have h1 := sizeOf_snd_lt_of_getElem hki
                omega
              have hgc : GoodN ncat c.2 := GoodNL_getElem _ _ _ _ hki hkids
              rcases ih c.2 hszc (trimPre rem l) (sub, isNew) hgc hsub with ⟨hgsub, hsum⟩
              constructor
              · simp only [GoodN]
                exact ⟨hv, hzero, GoodNL_set _ _ _ _ _ hkids hgsub⟩
              · intro m
                simp only [leafSum]
                have hset := leafSumL_set m kids idx c c.1 sub hki
                have hs := hsum m
                simp only [leafSum] at hs
                omega
        | subM =>
          dsimp only at heq
          rw [goInsertAKids_eq] at heq
          rcases hki : kids[idx]? with _ | c
          · rw [hki] at heq; simp at heq
          · rw [hki] at heq
            dsimp only at heq
            rcases hsub : goInsertA (updVals ncat cat) needle c.2 (trimPre rem l)
              with _ | ⟨sub, isNew⟩
            · rw [hsub] at heq; simp at heq
            · rw [hsub] at heq
              simp only [Option.some.injEq] at heq
              subst heq
              have hszc : sizeOf c.2 ≤ k2 := by
                have h1 := sizeOf_snd_lt_of_getElem hki
                omega
              have hgc : GoodN ncat c.2 := GoodNL_getElem _ _ _ _ hki hkids
              rcases ih c.2 hszc (trimPre rem l) (sub, isNew) hgc hsub with ⟨hgsub, hsum⟩
              constructor
              · simp only [GoodN]
                exact ⟨hv, hzero, GoodNL_set _ _ _ _ _ hkids hgsub⟩
              · intro m
                simp only [leafSum]
                have hset := leafSumL_set m kids idx c c.1 sub hki
                have hs := hsum m
                simp only [leafSum] at hs
                omega
        | shareM =>
          dsimp only at heq
          rcases hki : kids[idx]? with _ | c
          · rw [hki] at heq; simp at heq
          · rw [hki] at heq
            dsimp only at heq
            simp only [Option.some.injEq] at heq
            subst heq
            have hgc : GoodN ncat c.2 := GoodNL_getElem _ _ _ _ hki hkids
            have hnew := GoodN_newLeaf ncat cat
            constructor
            · simp only [GoodN]
              refine ⟨hv, hzero, GoodNL_set _ _ _ _ _ hkids ?_⟩
              simp only [GoodN]
              refine ⟨by simp, fun _ m => by simp, ?_⟩
              split
              · exact ⟨hnew, hgc, trivial⟩
              · exact ⟨hgc, hnew, trivial⟩
            · intro m
              simp only [leafSum]
              have hset := leafSumL_set m kids idx c l
                (RNode.mk [] false
                  (if lexLt (trimPre needle l) (trimPre c.1 l)
                    then [(trimPre needle l, RNode.mk (updVals ncat cat []) true []),
                          (trimPre c.1 l, c.2)]
                    else [(trimPre c.1 l, c.2),
                          (trimPre needle l, RNode.mk (updVals ncat cat []) true [])])) hki
              have hδ := leafSum_newLeaf ncat cat m hcat
              have hmid : leafSum m (RNode.mk [] false
                  (if lexLt (trimPre needle l) (trimPre c.1 l)
                    then [(trimPre needle l, RNode.mk (updVals ncat cat []) true []),
                          (trimPre c.1 l, c.2)]
                    else [(trimPre c.1 l, c.2),
                          (trimPre needle l, RNode.mk (updVals ncat cat []) true [])])) =
                  leafSum m c.2 + (if m = cat then 1 else 0) := by
                cases hb : lexLt (trimPre needle l) (trimPre c.1 l) <;>
                  simp [leafSum, leafSumL, hb] at hδ ⊢ <;> omega
              omega
        | superM =>
          dsimp only at heq
          rcases hki : kids[idx]? with _ | c
          · rw [hki] at heq; simp at heq
          · rw [hki] at heq
            dsimp only at heq
            simp only [Option.some.injEq] at heq
            subst heq
            have hgc : GoodN ncat c.2 := GoodNL_getElem _ _ _ _ hki hkids
            constructor
            · simp only [GoodN]
              refine ⟨hv, hzero, GoodNL_set _ _ _ _ _ hkids ?_⟩
              simp only [GoodN]
              exact ⟨Or.inr (updVals_length _ _ _ (Or.inl rfl)),
                fun hf => absurd hf (by simp), hgc, trivial⟩
            · intro m
              simp only [leafSum]
              have hset := leafSumL_set m kids idx c l
                (RNode.mk (updVals ncat cat []) true [(trimPre c.1 l, c.2)]) hki
              have hmid : leafSum m
                  (RNode.mk (updVals ncat cat []) true [(trimPre c.1 l, c.2)]) =
                  leafSum m c.2 + (if m = cat then 1 else 0) := by
                simp only [leafSum, leafSumL]
                by_cases hm : m = cat
                · subst hm
                  rw [updVals_getD_self _ _ _ hcat (Or.inl rfl)]
                  simp
                  omega
                · rw [updVals_getD_ne _ _ _ _ hm]
                  simp [hm]
              omega

/-- The whole-tree invariant behind the spec's `categoryTotals` claim:
totals list allocated at category-count length, every node `GoodN`, and
each total equal to the leaf-sum of its category. -/
def RootInv (t : RRoot) : Prop :=
  t.categoryTotals.length = t.numCategories ∧
  GoodN t.numCategories t.rootN ∧
  ∀ m, t.categoryTotals.getD m 0 = leafSum m t.rootN

theorem RootInv_newTree (n : Nat) : RootInv (newTree n) := by
  refine ⟨by simp [newTree], ?_, ?_⟩
  · simp only [newTree, GoodN]
    exact ⟨Or.inr (by simp), fun _ m => getD_replicate _ _, trivial⟩
  · intro m
    simp only [newTree, leafSum, leafSumL]
    simp [getD_replicate]

/-- A successful radix.go `Insert` preserves the invariant and bumps
exactly the inserted category's total by one. -/
theorem RootInv_insertA (t : RRoot) (w : List Char) (cat : Int) (t2 : RRoot)
    (hres : InsertA t w cat = .ok t2) (hinv : RootInv t) :
    RootInv t2 ∧
    t2.categoryTotals.getD cat.toNat 0 = t.categoryTotals.getD cat.toNat 0 + 1 ∧
    (∀ m, m ≠ cat.toNat → t2.categoryTotals.getD m 0 = t.categoryTotals.getD m 0) := by
  unfold InsertA at hres
  by_cases hc1 : (t.numCategories : Int) ≤ cat
  · rw [if_pos hc1] at hres
    simp at hres
  · rw [if_neg hc1] at hres
    by_cases hc2 : (0 : Int) ≤ cat
    · rw [if_pos hc2] at hres
      rcases hgo : goInsertA (updVals t.numCategories cat.toNat) w t.rootN w
        with _ | ⟨root2, isNew⟩
      · rw [hgo] at hres; simp at hres
      · rw [hgo] at hres
        dsimp only at hres
        simp only [InsRes.ok.injEq] at hres
        subst hres
        have hcat : cat.toNat < t.numCategories := by omega
        rcases hinv with ⟨hlen, hgood, htot⟩
        rcases goInsertA_good_leafSum t.numCategories cat.toNat hcat w
          (sizeOf t.rootN) t.rootN (le_refl _) w (root2, isNew) hgood hgo
          with ⟨hg2, hsum⟩
        refine ⟨⟨by simp [hlen], hg2, ?_⟩, ?_, ?_⟩
        · intro m
          by_cases hm : m = cat.toNat
          · rw [hm]
            show (t.categoryTotals.set cat.toNat
              (t.categoryTotals.getD cat.toNat 0 + 1)).getD cat.toNat 0 =
              leafSum cat.toNat root2
            rw [getD_set_self _ _ _ (by rw [hlen]; exact hcat)]
            have hs := hsum cat.toNat
            rw [if_pos rfl] at hs
            dsimp only at hs
            rw [htot cat.toNat]
            omega
          · show (t.categoryTotals.set cat.toNat
              (t.categoryTotals.getD cat.toNat 0 + 1)).getD m 0 =
              leafSum m root2
            rw [getD_set_ne _ _ _ _ hm]
            have hs := hsum m
            rw [if_neg hm] at hs
            dsimp only at hs
            rw [htot m]
            omega
        · show (t.categoryTotals.set cat.toNat
            (t.categoryTotals.getD cat.toNat 0 + 1)).getD cat.toNat 0 = _
          rw [getD_set_self _ _ _ (by rw [hlen]; exact hcat)]
        · intro m hm
          show (t.categoryTotals.set cat.toNat
            (t.categoryTotals.getD cat.toNat 0 + 1)).getD m 0 = _
          rw [getD_set_ne _ _ _ _ hm]
    · rw [if_neg hc2] at hres
      rcases hgo : goInsertA (allocVals t.numCategories) w t.rootN w
        with _ | ⟨root2, isNew⟩ <;> rw [hgo] at hres <;> simp at hres

/-- Trees reachable from `New` by successful `Insert`s (radix.go revision). -/
inductive ReachA : RRoot → Prop where
  | base (n : Nat) : 0 < n → ReachA (newTree n)
  | step (t : RRoot) (w : List Char) (cat : Int) (t2 : RRoot) :
      ReachA t → InsertA t w cat = .ok t2 → ReachA t2

theorem ReachA_rootInv (t : RRoot) (h : ReachA t) : RootInv t := by
  induction h with
  | base n _ => exact RootInv_newTree n
  | step t w cat t2 _ hres ih => exact (RootInv_insertA t w cat t2 hres ih).1

/-- C5: on every tree reachable by successful `Insert`s, `GetTotals()[c]`
equals the sum of `counts[c]` over the nodes currently flagged leaf, and
each further successful `Insert(s, c)` increments `GetTotals()[c]` by
exactly 1, leaving every other category's total unchanged. -/
theorem C5_totals_invariant (t : RRoot) (h : ReachA t) :
    (∀ m, t.categoryTotals.getD m 0 = leafSum m t.rootN) ∧
    (∀ (w : List Char) (cat : Int) (t2 : RRoot), InsertA t w cat = .ok t2 →
      t2.categoryTotals.getD cat.toNat 0 = t.categoryTotals.getD cat.toNat 0 + 1 ∧
      ∀ m, m ≠ cat.toNat → t2.categoryTotals.getD m 0 = t.categoryTotals.getD m 0) := by
  refine ⟨(ReachA_rootInv t h).2.2, ?_⟩
  intro w cat t2 hres
  exact (RootInv_insertA t w cat t2 hres (ReachA_rootInv t h)).2

theorem C5_totals_invariant_witness :
    ReachA (newTree 2) ∧
    ((∀ m, (newTree 2).categoryTotals.getD m 0 = leafSum m (newTree 2).rootN) ∧
     (∀ (w : List Char) (cat : Int) (t2 : RRoot), InsertA (newTree 2) w cat = .ok t2 →
       t2.categoryTotals.getD cat.toNat 0 =
         (newTree 2).categoryTotals.getD cat.toNat 0 + 1 ∧
       ∀ m, m ≠ cat.toNat →
         t2.categoryTotals.getD m 0 = (newTree 2).categoryTotals.getD m 0)) :=
  ⟨ReachA.base 2 (by norm_num),
   C5_totals_invariant (newTree 2) (ReachA.base 2 (by norm_num))⟩
